import Mathlib

/-!
Shallow embedding of the steerable Gaussian filter code in
`examples/DynamicFilterNetwork/steering-filter.py` (class `ThetaImages`):
the static methods `get_filter` and `filter_with_theta`, together with the
NumPy/SciPy operations they use (`np.arange`, `np.matmul`, transposition
`.T`, scalar broadcasting, elementwise `+`, unary `-`, and
`scipy.signal.convolve2d` with `mode='same'`, `boundary='fill'`,
`fillvalue=0`).

Images and kernels are `List (List α)` over a field `α` (row-major 2D
arrays).  The transcendental functions `exp`, `cos`, `sin` are passed as
parameters so that the definitions stay computable; every theorem about
the actual program instantiates them with `Real.exp`, `Real.cos`,
`Real.sin`.
-/

namespace SteeringFilter

variable {α : Type} [Field α]

/-- `np.arange a b` on integers: the list `[a, a+1, ..., b-1]`. -/
def arange (a b : ℤ) : List ℤ :=
  (List.range (b - a).toNat).map (fun i : ℕ => a + (i : ℤ))

/-- The index vector `x = np.arange(-filter_size // 2 + 1, filter_size // 2 + 1)`
appearing in both `get_filter` and `filter_with_theta`
(Python `//` is floor division, hence `Int.fdiv`). -/
def steer_x (filter_size : ℕ) : List ℤ :=
  arange (Int.fdiv (-(filter_size : ℤ)) 2 + 1) (Int.fdiv (filter_size : ℤ) 2 + 1)

/-- The 1D Gaussian, `np.exp(-(x**2) / (2 * sigma**2))`, as a list of scalars. -/
def gauss_g (e : α → α) (σ : α) (filter_size : ℕ) : List α :=
  (steer_x filter_size).map (fun t : ℤ => e ((-((t : α) ^ 2)) / (2 * σ ^ 2)))

/-- The first derivative of the 1D Gaussian,
`-(x / sigma) * np.exp(-(x**2) / (2 * sigma**2))`, as a list of scalars. -/
def gauss_gp (e : α → α) (σ : α) (filter_size : ℕ) : List α :=
  (steer_x filter_size).map
    (fun t : ℤ => -((t : α) / σ) * e ((-((t : α) ^ 2)) / (2 * σ ^ 2)))

/-- Entry `M[r][c]` of a 2D array, `0` when out of range. -/
def entry (M : List (List α)) (r c : ℕ) : α := (M.getD r []).getD c 0

/-- The `h × w` array whose `(r, c)` entry is `f r c`. -/
def mkGrid (h w : ℕ) (f : ℕ → ℕ → α) : List (List α) :=
  (List.range h).map (fun r => (List.range w).map (fun c => f r c))

/-- Transpose `M.T` of a rectangular 2D array. -/
def T (M : List (List α)) : List (List α) :=
  mkGrid (M.getD 0 []).length M.length (fun r c => entry M c r)

/-- `np.matmul` on 2D arrays. -/
def matmul (A B : List (List α)) : List (List α) :=
  mkGrid A.length (B.getD 0 []).length
    (fun i j => ∑ k ∈ Finset.range B.length, entry A i k * entry B k j)

/-- Scalar times array (NumPy broadcasting of `c * M`). -/
def smul (a : α) (M : List (List α)) : List (List α) :=
  M.map (fun row => row.map (fun v => a * v))

/-- Elementwise negation `-M`. -/
def negM (M : List (List α)) : List (List α) :=
  M.map (fun row => row.map (fun v => -v))

/-- Elementwise sum `A + B` of two same-shape arrays. -/
def madd (A B : List (List α)) : List (List α) :=
  List.zipWith (fun r1 r2 => List.zipWith (fun u v => u + v) r1 r2) A B

/-- Access `M[r][c]` at integer indices with zero fill outside the extent
(`boundary='fill', fillvalue=0`). -/
def getZ (M : List (List α)) (r c : ℤ) : α :=
  if 0 ≤ r ∧ r < (M.length : ℤ) ∧ 0 ≤ c ∧ c < ((M.getD r.toNat []).length : ℤ) then
    entry M r.toNat c.toNat
  else 0

/-- `scipy.signal.convolve2d(M, K, mode='same', boundary='fill', fillvalue=0)`:
true 2D convolution (kernel flipped), stride 1, output the size of `M`,
centered with respect to the full convolution. -/
def convolve2d (M K : List (List α)) : List (List α) :=
  mkGrid M.length (M.getD 0 []).length (fun r c =>
    ∑ p ∈ Finset.range K.length, ∑ q ∈ Finset.range (K.getD 0 []).length,
      entry K p q *
        getZ M ((r : ℤ) + ((K.length - 1) / 2 : ℕ) - (p : ℤ))
               ((c : ℤ) + (((K.getD 0 []).length - 1) / 2 : ℕ) - (q : ℤ)))

/-- `ThetaImages.get_filter(theta, sigma, filter_size)`:
`gt_filter = np.matmul(g.T, gp)` followed by
`np.cos(theta) * gt_filter + np.sin(theta) * gt_filter.T`. -/
def get_filter (e co si : α → α) (θ σ : α) (filter_size : ℕ) : List (List α) :=
  let g : List (List α) := [gauss_g e σ filter_size]
  let gp : List (List α) := [gauss_gp e σ filter_size]
  let gt0 := matmul (T g) gp
  madd (smul (co θ) gt0) (smul (si θ) (T gt0))

/-- `ThetaImages.filter_with_theta(image, theta, sigma, filter_size)`:
the separable path `ix = conv(conv(image, -gp), g.T)`,
`iy = conv(conv(image, g), -gp.T)`, output `cos θ · ix + sin θ · iy`,
returned together with the combined kernel (the same construction as
`get_filter`, duplicated in the source). -/
def filter_with_theta (e co si : α → α) (image : List (List α)) (θ σ : α)
    (filter_size : ℕ) : List (List α) × List (List α) :=
  let g : List (List α) := [gauss_g e σ filter_size]
  let gp : List (List α) := [gauss_gp e σ filter_size]
  let ix1 := convolve2d image (negM gp)
  let ix := convolve2d ix1 (T g)
  let iy1 := convolve2d image g
  let iy := convolve2d iy1 (negM (T gp))
  let output := madd (smul (co θ) ix) (smul (si θ) iy)
  let gt0 := matmul (T g) gp
  let gt := madd (smul (co θ) gt0) (smul (si θ) (T gt0))
  (output, gt)

/-- A rectangular ("2D") array: every row has the length of the first row. -/
def IsRect (M : List (List α)) : Prop :=
  ∀ row ∈ M, row.length = (M.getD 0 []).length

/-- The `n × n` image that is zero except for a single `1` at the center
pixel `(n / 2, n / 2)`. -/
def deltaImage (n : ℕ) : List (List α) :=
  mkGrid n n (fun r c => if r = n / 2 ∧ c = n / 2 then 1 else 0)

/-! ### Basic lemmas about grids and list access -/

theorem getD_eq_getElem_of_lt {β : Type} (l : List β) (d : β) {i : ℕ}
    (hi : i < l.length) : l.getD i d = l[i] := by
  simp [List.getD_eq_getElem?_getD, List.getElem?_eq_getElem hi]

theorem getD_map_of_lt {β γ : Type} (f : β → γ) (l : List β) (d : β) (d' : γ)
    {i : ℕ} (hi : i < l.length) :
    (l.map f).getD i d' = f (l.getD i d) := by
  rw [getD_eq_getElem_of_lt _ _ (by simpa using hi),
    getD_eq_getElem_of_lt _ _ hi, List.getElem_map]

theorem length_mkGrid (h w : ℕ) (f : ℕ → ℕ → α) : (mkGrid h w f).length = h := by
  simp [mkGrid]

theorem getD_mkGrid_row (h w : ℕ) (f : ℕ → ℕ → α) {r : ℕ} (hr : r < h) :
    (mkGrid h w f).getD r [] = (List.range w).map (f r) := by
  rw [mkGrid, getD_eq_getElem_of_lt _ _ (by simpa using hr)]
  simp

theorem row_length_mkGrid (h w : ℕ) (f : ℕ → ℕ → α) {r : ℕ} (hr : r < h) :
    ((mkGrid h w f).getD r []).length = w := by
  rw [getD_mkGrid_row h w f hr]; simp

theorem entry_mkGrid (h w : ℕ) (f : ℕ → ℕ → α) {r c : ℕ} (hr : r < h)
    (hc : c < w) : entry (mkGrid h w f) r c = f r c := by
  rw [entry, getD_mkGrid_row h w f hr,
    getD_eq_getElem_of_lt _ _ (by simpa using hc)]
  simp

theorem getZ_mkGrid (h w : ℕ) (f : ℕ → ℕ → α) (r c : ℤ) :
    getZ (mkGrid h w f) r c =
      if 0 ≤ r ∧ r < (h : ℤ) ∧ 0 ≤ c ∧ c < (w : ℤ) then f r.toNat c.toNat
      else 0 := by
  rw [getZ, length_mkGrid]
  by_cases hr0 : 0 ≤ r
  · by_cases hrh : r < (h : ℤ)
    · have hrn : r.toNat < h := by omega
      rw [row_length_mkGrid h w f hrn]
      by_cases hc0 : 0 ≤ c
      · by_cases hcw : c < (w : ℤ)
        · have hcn : c.toNat < w := by omega
          rw [if_pos ⟨hr0, by exact_mod_cast hrh, hc0, by exact_mod_cast hcw⟩,
            if_pos ⟨hr0, hrh, hc0, hcw⟩]
          exact entry_mkGrid h w f hrn hcn
        · rw [if_neg (by tauto), if_neg (by tauto)]
      · rw [if_neg (by tauto), if_neg (by tauto)]
    · rw [if_neg (by tauto), if_neg (by tauto)]
  · rw [if_neg (by tauto), if_neg (by tauto)]

theorem getZ_row_out (M : List (List α)) (r c : ℤ)
    (h : ¬(0 ≤ r ∧ r < (M.length : ℤ))) : getZ M r c = 0 := by
  rw [getZ, if_neg (by tauto)]

theorem getZ_of_nat (M : List (List α)) {r c : ℕ} (hr : r < M.length)
    (hc : c < (M.getD r []).length) : getZ M (r : ℤ) (c : ℤ) = entry M r c := by
  rw [getZ, if_pos]
  · simp
  · refine ⟨by positivity, by exact_mod_cast hr, by positivity, ?_⟩
    simpa using (by exact_mod_cast hc : (c : ℤ) < ((M.getD r []).length : ℤ))

theorem smul_mkGrid (a : α) (h w : ℕ) (f : ℕ → ℕ → α) :
    smul a (mkGrid h w f) = mkGrid h w (fun r c => a * f r c) := by
  simp [smul, mkGrid, List.map_map, Function.comp]

theorem negM_mkGrid (h w : ℕ) (f : ℕ → ℕ → α) :
    negM (mkGrid h w f) = mkGrid h w (fun r c => -(f r c)) := by
  simp [negM, mkGrid, List.map_map, Function.comp]

theorem madd_mkGrid (h w : ℕ) (f g : ℕ → ℕ → α) :
    madd (mkGrid h w f) (mkGrid h w g) = mkGrid h w (fun r c => f r c + g r c) := by
  simp only [madd, mkGrid, List.zipWith_map, List.zipWith_same]

theorem mkGrid_congr (h w : ℕ) (f g : ℕ → ℕ → α)
    (H : ∀ r < h, ∀ c < w, f r c = g r c) : mkGrid h w f = mkGrid h w g := by
  unfold mkGrid
  refine List.map_congr_left (fun r hr => ?_)
  refine List.map_congr_left (fun c hc => ?_)
  exact H r (List.mem_range.mp hr) c (List.mem_range.mp hc)

theorem grid_ext (A B : List (List α)) (hlen : A.length = B.length)
    (hrow : ∀ r < A.length, (A.getD r []).length = (B.getD r []).length)
    (hent : ∀ r c, r < A.length → c < (A.getD r []).length →
      entry A r c = entry B r c) : A = B := by
  refine List.ext_getElem hlen (fun r h1 h2 => ?_)
  refine List.ext_getElem ?_ (fun c h3 h4 => ?_)
  · have := hrow r h1
    rwa [getD_eq_getElem_of_lt _ _ h1, getD_eq_getElem_of_lt _ _ h2] at this
  · have := hent r c h1 (by rwa [getD_eq_getElem_of_lt _ _ h1])
    rwa [entry, entry, getD_eq_getElem_of_lt _ _ h1, getD_eq_getElem_of_lt _ _ h2,
      getD_eq_getElem_of_lt _ _ h3, getD_eq_getElem_of_lt _ _ h4] at this

/-! ### The index vector and the two 1D kernels -/

theorem steer_x_length (n : ℕ) : (steer_x n).length = n := by
  rw [steer_x, arange, Int.fdiv_eq_ediv _ (by norm_num),
    Int.fdiv_eq_ediv _ (by norm_num), List.length_map, List.length_range]
  omega

theorem steer_x_getD (n : ℕ) {i : ℕ} (hi : i < n) :
    (steer_x n).getD i 0 = Int.fdiv (-(n : ℤ)) 2 + 1 + (i : ℤ) := by
  have hlen : (steer_x n).length = n := steer_x_length n
  rw [steer_x, arange, List.length_map, List.length_range] at hlen
  rw [steer_x, arange,
    getD_map_of_lt _ _ 0 _ (by rw [List.length_range]; omega),
    getD_eq_getElem_of_lt _ _ (by rw [List.length_range]; omega),
    List.getElem_range]

theorem steer_x_getD_odd (n : ℕ) (hodd : Odd n) {i : ℕ} (hi : i < n) :
    (steer_x n).getD i 0 = (i : ℤ) - ((n / 2 : ℕ) : ℤ) := by
  rw [steer_x_getD n hi, Int.fdiv_eq_ediv _ (by norm_num)]
  obtain ⟨m, hm⟩ := hodd
  omega

theorem steer_x_reflect (n : ℕ) (hodd : Odd n) {i : ℕ} (hi : i < n) :
    (steer_x n).getD (n - 1 - i) 0 = -((steer_x n).getD i 0) := by
  rw [steer_x_getD_odd n hodd (by omega), steer_x_getD_odd n hodd hi]
  obtain ⟨m, hm⟩ := hodd
  omega

theorem gauss_g_length (e : α → α) (σ : α) (n : ℕ) :
    (gauss_g e σ n).length = n := by
  simp [gauss_g, steer_x_length]

theorem gauss_gp_length (e : α → α) (σ : α) (n : ℕ) :
    (gauss_gp e σ n).length = n := by
  simp [gauss_gp, steer_x_length]

theorem gauss_g_getD (e : α → α) (σ : α) (n : ℕ) {i : ℕ} (hi : i < n) :
    (gauss_g e σ n).getD i 0 =
      e ((-((((steer_x n).getD i 0 : ℤ) : α) ^ 2)) / (2 * σ ^ 2)) := by
  unfold gauss_g
  rw [getD_map_of_lt _ _ 0 _ (by rw [steer_x_length]; exact hi)]

theorem gauss_gp_getD (e : α → α) (σ : α) (n : ℕ) {i : ℕ} (hi : i < n) :
    (gauss_gp e σ n).getD i 0 =
      -((((steer_x n).getD i 0 : ℤ) : α) / σ) *
        e ((-((((steer_x n).getD i 0 : ℤ) : α) ^ 2)) / (2 * σ ^ 2)) := by
  unfold gauss_gp
  rw [getD_map_of_lt _ _ 0 _ (by rw [steer_x_length]; exact hi)]

theorem gauss_g_reflect (e : α → α) (σ : α) (n : ℕ) (hodd : Odd n) {i : ℕ}
    (hi : i < n) :
    (gauss_g e σ n).getD (n - 1 - i) 0 = (gauss_g e σ n).getD i 0 := by
  rw [gauss_g_getD e σ n (by omega), gauss_g_getD e σ n hi,
    steer_x_reflect n hodd hi, Int.cast_neg, neg_sq]

theorem gauss_gp_reflect (e : α → α) (σ : α) (n : ℕ) (hodd : Odd n) {i : ℕ}
    (hi : i < n) :
    (gauss_gp e σ n).getD (n - 1 - i) 0 = -((gauss_gp e σ n).getD i 0) := by
  rw [gauss_gp_getD e σ n (by omega), gauss_gp_getD e σ n hi,
    steer_x_reflect n hodd hi, Int.cast_neg, neg_sq]
  ring

theorem gauss_gp_sum (e : α → α) (σ : α) (n : ℕ) (hodd : Odd n)
    [CharZero α] :
    ∑ i ∈ Finset.range n, (gauss_gp e σ n).getD i 0 = 0 := by
  have h := Finset.sum_range_reflect (fun i => (gauss_gp e σ n).getD i 0) n
  rw [Finset.sum_congr rfl (fun j hj =>
    gauss_gp_reflect e σ n hodd (Finset.mem_range.mp hj))] at h
  rw [Finset.sum_neg_distrib] at h
  have h2 : (2 : α) * (∑ i ∈ Finset.range n, (gauss_gp e σ n).getD i 0) = 0 := by
    linear_combination -h
  rcases mul_eq_zero.mp h2 with h3 | h3
  · exact absurd h3 two_ne_zero
  · exact h3

/-! ### The combined kernel as an explicit grid -/

theorem T_row (l : List α) : T [l] = l.map (fun t => [t]) := by
  unfold T mkGrid
  simp only [List.getD_cons_zero, List.length_singleton]
  refine List.ext_getElem (by simp) (fun i h1 h2 => ?_)
  simp only [List.getElem_map, List.getElem_range]
  have hi : i < l.length := by simpa using h2
  show [entry [l] 0 i] = [l[i]]
  simp only [entry, List.getD_cons_zero]
  rw [getD_eq_getElem_of_lt _ _ hi]

theorem negM_row (l : List α) : negM [l] = [l.map (fun v => -v)] := by
  simp [negM]

theorem negM_col (l : List α) :
    negM (T [l]) = (l.map (fun v => -v)).map (fun t => [t]) := by
  rw [T_row]
  simp [negM, List.map_map, Function.comp]

theorem outer_eq (e : α → α) (σ : α) (n : ℕ) (hn : 0 < n) :
    matmul (T [gauss_g e σ n]) [gauss_gp e σ n] =
      mkGrid n n (fun i j =>
        (gauss_g e σ n).getD i 0 * (gauss_gp e σ n).getD j 0) := by
  unfold matmul T
  simp only [List.getD_cons_zero, List.length_singleton, gauss_g_length,
    gauss_gp_length, length_mkGrid, Finset.sum_range_one]
  refine mkGrid_congr _ _ _ _ (fun i hi j hj => ?_)
  rw [entry_mkGrid _ _ _ hi (by norm_num)]
  rfl

theorem T_mkGrid (h w : ℕ) (f : ℕ → ℕ → α) (hh : 0 < h) :
    T (mkGrid h w f) = mkGrid w h (fun r c => f c r) := by
  unfold T
  rw [length_mkGrid, row_length_mkGrid h w f hh]
  exact mkGrid_congr _ _ _ _ (fun r hr c hc => entry_mkGrid h w f hc hr)

theorem get_filter_eq (e co si : α → α) (θ σ : α) (n : ℕ) (hn : 0 < n) :
    get_filter e co si θ σ n = mkGrid n n (fun p q =>
      co θ * ((gauss_g e σ n).getD p 0 * (gauss_gp e σ n).getD q 0) +
      si θ * ((gauss_g e σ n).getD q 0 * (gauss_gp e σ n).getD p 0)) := by
  show madd (smul (co θ) (matmul (T [gauss_g e σ n]) [gauss_gp e σ n]))
      (smul (si θ) (T (matmul (T [gauss_g e σ n]) [gauss_gp e σ n]))) = _
  rw [outer_eq e σ n hn, T_mkGrid n n _ hn, smul_mkGrid, smul_mkGrid, madd_mkGrid]

/-! ### Elementwise characterization of the array operations -/

theorem smul_length (a : α) (M : List (List α)) : (smul a M).length = M.length :=
  List.length_map M _

theorem smul_row (a : α) (M : List (List α)) {r : ℕ} (hr : r < M.length) :
    (smul a M).getD r [] = (M.getD r []).map (fun v => a * v) :=
  getD_map_of_lt _ M [] [] hr

theorem entry_smul (a : α) (M : List (List α)) {r c : ℕ} (hr : r < M.length)
    (hc : c < (M.getD r []).length) :
    entry (smul a M) r c = a * entry M r c := by
  rw [entry, smul_row a M hr, getD_map_of_lt _ _ 0 _ hc]
  rfl

theorem madd_length (A B : List (List α)) :
    (madd A B).length = min A.length B.length :=
  List.length_zipWith ..

theorem entry_madd (A B : List (List α)) {r c : ℕ} (hrA : r < A.length)
    (hrB : r < B.length) (hcA : c < (A.getD r []).length)
    (hcB : c < (B.getD r []).length) :
    entry (madd A B) r c = entry A r c + entry B r c := by
  have haA : A.getD r [] = A[r] := getD_eq_getElem_of_lt _ _ hrA
  have haB : B.getD r [] = B[r] := getD_eq_getElem_of_lt _ _ hrB
  rw [haA] at hcA
  rw [haB] at hcB
  have hr2 : r < (List.zipWith
      (fun r1 r2 => List.zipWith (fun u v : α => u + v) r1 r2) A B).length := by
    rw [List.length_zipWith]; omega
  have step1 : (madd A B).getD r [] =
      List.zipWith (fun u v : α => u + v) A[r] B[r] := by
    rw [madd, getD_eq_getElem_of_lt _ _ hr2, List.getElem_zipWith]
  have hc2 : c < (List.zipWith (fun u v : α => u + v) A[r] B[r]).length := by
    rw [List.length_zipWith]; omega
  rw [entry, step1, getD_eq_getElem_of_lt _ _ hc2, List.getElem_zipWith]
  rw [entry, entry, haA, haB, getD_eq_getElem_of_lt _ _ hcA,
    getD_eq_getElem_of_lt _ _ hcB]

theorem conv_length (M K : List (List α)) :
    (convolve2d M K).length = M.length :=
  length_mkGrid _ _ _

theorem conv_row_length (M K : List (List α)) {r : ℕ} (hr : r < M.length) :
    ((convolve2d M K).getD r []).length = (M.getD 0 []).length :=
  row_length_mkGrid _ _ _ hr

theorem convolve2d_nil (K : List (List α)) : convolve2d [] K = [] := by
  simp [convolve2d, mkGrid]

/-! ### Separable 1D convolutions against a row and a column kernel -/

theorem conv_row_eq (M : List (List α)) (a : List α) :
    convolve2d M [a] =
      mkGrid M.length (M.getD 0 []).length (fun r c =>
        ∑ q ∈ Finset.range a.length,
          a.getD q 0 *
            getZ M (r : ℤ) ((c : ℤ) + (((a.length - 1) / 2 : ℕ) : ℤ) - (q : ℤ))) := by
  unfold convolve2d
  simp only [List.length_singleton, List.getD_cons_zero]
  refine congrArg _ (funext fun r => funext fun c => ?_)
  rw [Finset.sum_range_one]
  refine Finset.sum_congr rfl (fun q hq => ?_)
  simp only [entry, List.getD_cons_zero]
  norm_num

theorem conv_col_eq (h w : ℕ) (f : ℕ → ℕ → α) (b : List α) (hh : 0 < h)
    (hb : 0 < b.length) :
    convolve2d (mkGrid h w f) (b.map (fun t => [t])) =
      mkGrid h w (fun r c =>
        ∑ p ∈ Finset.range b.length,
          b.getD p 0 *
            getZ (mkGrid h w f)
              ((r : ℤ) + (((b.length - 1) / 2 : ℕ) : ℤ) - (p : ℤ)) (c : ℤ)) := by
  have hK0 : ((b.map (fun t => ([t] : List α))).getD 0 []).length = 1 := by
    rw [getD_eq_getElem_of_lt _ _ (by simpa using hb), List.getElem_map]
    rfl
  unfold convolve2d
  rw [length_mkGrid, row_length_mkGrid h w f hh, List.length_map, hK0]
  refine congrArg _ (funext fun r => funext fun c => ?_)
  refine Finset.sum_congr rfl (fun p hp => ?_)
  rw [Finset.sum_range_one]
  have hp' : p < b.length := Finset.mem_range.mp hp
  have hE : entry (b.map (fun t => ([t] : List α))) p 0 = b.getD p 0 := by
    rw [entry, getD_map_of_lt _ _ 0 _ hp', List.getD_cons_zero]
  rw [hE]
  norm_num

theorem conv_rowcol_entry (M : List (List α)) (a b : List α) {n : ℕ}
    (hn : 0 < n) (ha : a.length = n) (hb : b.length = n) {r c : ℕ}
    (hr : r < M.length) (hc : c < (M.getD 0 []).length) :
    entry (convolve2d (convolve2d M [a]) (b.map (fun t => [t]))) r c =
      ∑ p ∈ Finset.range n, ∑ q ∈ Finset.range n,
        b.getD p 0 * a.getD q 0 *
          getZ M ((r : ℤ) + (((n - 1) / 2 : ℕ) : ℤ) - (p : ℤ))
                 ((c : ℤ) + (((n - 1) / 2 : ℕ) : ℤ) - (q : ℤ)) := by
  rw [conv_row_eq M a, ha]
  rw [conv_col_eq M.length (M.getD 0 []).length _ b (by omega) (by omega)]
  rw [entry_mkGrid _ _ _ hr hc, hb]
  refine Finset.sum_congr rfl (fun p hp => ?_)
  rw [getZ_mkGrid]
  by_cases hin : (0 : ℤ) ≤ (r : ℤ) + (((n - 1) / 2 : ℕ) : ℤ) - (p : ℤ) ∧
      (r : ℤ) + (((n - 1) / 2 : ℕ) : ℤ) - (p : ℤ) < (M.length : ℤ)
  · rw [if_pos ⟨hin.1, hin.2, by positivity, by exact_mod_cast hc⟩]
    rw [Int.toNat_of_nonneg hin.1, Int.toNat_natCast, Finset.mul_sum]
    refine Finset.sum_congr rfl (fun q hq => ?_)
    ring
  · rw [if_neg (by tauto), mul_zero, eq_comm]
    refine Finset.sum_eq_zero (fun q hq => ?_)
    rw [getZ_row_out M _ _ (by tauto), mul_zero]

/-! ### The separable path as a single 2D convolution -/

theorem filter_output_def (e co si : α → α) (M : List (List α)) (θ σ : α)
    (n : ℕ) :
    (filter_with_theta e co si M θ σ n).1 =
      madd
        (smul (co θ)
          (convolve2d (convolve2d M (negM [gauss_gp e σ n])) (T [gauss_g e σ n])))
        (smul (si θ)
          (convolve2d (convolve2d M [gauss_g e σ n]) (negM (T [gauss_gp e σ n])))) :=
  rfl

theorem madd_row (A B : List (List α)) {r : ℕ} (hrA : r < A.length)
    (hrB : r < B.length) :
    (madd A B).getD r [] =
      List.zipWith (fun u v : α => u + v) (A.getD r []) (B.getD r []) := by
  rw [madd, getD_eq_getElem_of_lt _ _ (by rw [List.length_zipWith]; omega),
    List.getElem_zipWith, getD_eq_getElem_of_lt _ _ hrA,
    getD_eq_getElem_of_lt _ _ hrB]

theorem output_length (e co si : α → α) (M : List (List α)) (θ σ : α) (n : ℕ) :
    ((filter_with_theta e co si M θ σ n).1).length = M.length := by
  rw [filter_output_def, madd_length, smul_length, smul_length, conv_length,
    conv_length, conv_length, conv_length]
  exact Nat.min_self _

theorem output_row_length (e co si : α → α) (M : List (List α)) (θ σ : α)
    (n : ℕ) {r : ℕ} (hr : r < M.length) :
    (((filter_with_theta e co si M θ σ n).1).getD r []).length =
      (M.getD 0 []).length := by
  have h0 : 0 < M.length := by omega
  have hx1 : r < (convolve2d (convolve2d M (negM [gauss_gp e σ n]))
      (T [gauss_g e σ n])).length := by rw [conv_length, conv_length]; exact hr
  have hx2 : r < (convolve2d (convolve2d M [gauss_g e σ n])
      (negM (T [gauss_gp e σ n]))).length := by rw [conv_length, conv_length]; exact hr
  have hi1 : r < (convolve2d M (negM [gauss_gp e σ n])).length := by
    rw [conv_length]; exact hr
  have hi2 : r < (convolve2d M [gauss_g e σ n]).length := by
    rw [conv_length]; exact hr
  rw [filter_output_def,
    madd_row _ _ (by rw [smul_length]; exact hx1) (by rw [smul_length]; exact hx2),
    List.length_zipWith, smul_row _ _ hx1, smul_row _ _ hx2, List.length_map,
    List.length_map,
    conv_row_length _ _ hi1, conv_row_length _ _ hi2,
    conv_row_length _ _ h0, conv_row_length _ _ h0]
  exact Nat.min_self _

theorem output_entry (e co si : α → α) (M : List (List α)) (θ σ : α) {n : ℕ}
    (hn : 0 < n) {r c : ℕ} (hr : r < M.length)
    (hc : c < (M.getD 0 []).length) :
    entry ((filter_with_theta e co si M θ σ n).1) r c =
      co θ * (∑ p ∈ Finset.range n, ∑ q ∈ Finset.range n,
        (gauss_g e σ n).getD p 0 * -((gauss_gp e σ n).getD q 0) *
          getZ M ((r : ℤ) + (((n - 1) / 2 : ℕ) : ℤ) - (p : ℤ))
                 ((c : ℤ) + (((n - 1) / 2 : ℕ) : ℤ) - (q : ℤ))) +
      si θ * (∑ p ∈ Finset.range n, ∑ q ∈ Finset.range n,
        -((gauss_gp e σ n).getD p 0) * (gauss_g e σ n).getD q 0 *
          getZ M ((r : ℤ) + (((n - 1) / 2 : ℕ) : ℤ) - (p : ℤ))
                 ((c : ℤ) + (((n - 1) / 2 : ℕ) : ℤ) - (q : ℤ))) := by
  have h0 : 0 < M.length := by omega
  have hgl : (gauss_g e σ n).length = n := gauss_g_length e σ n
  have hgp : ((gauss_gp e σ n).map (fun v => -v)).length = n := by
    rw [List.length_map, gauss_gp_length]
  have hneg : ∀ i < n, ((gauss_gp e σ n).map (fun v => -v)).getD i 0 =
      -((gauss_gp e σ n).getD i 0) := fun i hi => by
    rw [getD_map_of_lt _ _ 0 _ (by rw [gauss_gp_length]; exact hi)]
  rw [filter_output_def, negM_row, T_row, negM_col]
  have hx1 : r < (convolve2d (convolve2d M [(gauss_gp e σ n).map (fun v => -v)])
      ((gauss_g e σ n).map (fun t => [t]))).length := by
    rw [conv_length, conv_length]; exact hr
  have hx2 : r < (convolve2d (convolve2d M [gauss_g e σ n])
      (((gauss_gp e σ n).map (fun v => -v)).map (fun t => [t]))).length := by
    rw [conv_length, conv_length]; exact hr
  have hi1 : r < (convolve2d M [(gauss_gp e σ n).map (fun v => -v)]).length := by
    rw [conv_length]; exact hr
  have hi2 : r < (convolve2d M [gauss_g e σ n]).length := by
    rw [conv_length]; exact hr
  have hw1 : c < ((convolve2d (convolve2d M [(gauss_gp e σ n).map (fun v => -v)])
      ((gauss_g e σ n).map (fun t => [t]))).getD r []).length := by
    rw [conv_row_length _ _ hi1, conv_row_length _ _ h0]
    exact hc
  have hw2 : c < ((convolve2d (convolve2d M [gauss_g e σ n])
      (((gauss_gp e σ n).map (fun v => -v)).map (fun t => [t]))).getD r []).length := by
    rw [conv_row_length _ _ hi2, conv_row_length _ _ h0]
    exact hc
  rw [entry_madd _ _ (by rw [smul_length]; exact hx1)
    (by rw [smul_length]; exact hx2)
    (by rw [smul_row _ _ hx1, List.length_map]; exact hw1)
    (by rw [smul_row _ _ hx2, List.length_map]; exact hw2)]
  rw [entry_smul _ _ hx1 hw1, entry_smul _ _ hx2 hw2]
  rw [conv_rowcol_entry M ((gauss_gp e σ n).map (fun v => -v)) (gauss_g e σ n)
    hn hgp hgl hr hc]
  rw [conv_rowcol_entry M (gauss_g e σ n) ((gauss_gp e σ n).map (fun v => -v))
    hn hgl hgp hr hc]
  congr 1
  · congr 1
    refine Finset.sum_congr rfl fun p hp => Finset.sum_congr rfl fun q hq => ?_
    rw [hneg q (Finset.mem_range.mp hq)]
  · congr 1
    refine Finset.sum_congr rfl fun p hp => Finset.sum_congr rfl fun q hq => ?_
    rw [hneg p (Finset.mem_range.mp hp)]

theorem conv_kernel_entry (M : List (List α)) (n : ℕ) (hn : 0 < n)
    (G : ℕ → ℕ → α) {r c : ℕ} (hr : r < M.length)
    (hc : c < (M.getD 0 []).length) :
    entry (convolve2d M (mkGrid n n G)) r c =
      ∑ p ∈ Finset.range n, ∑ q ∈ Finset.range n,
        G p q * getZ M ((r : ℤ) + (((n - 1) / 2 : ℕ) : ℤ) - (p : ℤ))
                       ((c : ℤ) + (((n - 1) / 2 : ℕ) : ℤ) - (q : ℤ)) := by
  unfold convolve2d
  rw [length_mkGrid, row_length_mkGrid n n G hn, entry_mkGrid _ _ _ hr hc]
  refine Finset.sum_congr rfl fun p hp => Finset.sum_congr rfl fun q hq => ?_
  rw [entry_mkGrid n n G (Finset.mem_range.mp hp) (Finset.mem_range.mp hq)]

theorem separable_entry (e co si : α → α) (M : List (List α)) (θ σ : α)
    {n : ℕ} (hn : 0 < n) {r c : ℕ} (hr : r < M.length)
    (hc : c < (M.getD 0 []).length) :
    entry ((filter_with_theta e co si M θ σ n).1) r c =
      entry (convolve2d M (negM (get_filter e co si θ σ n))) r c := by
  rw [output_entry e co si M θ σ hn hr hc,
    get_filter_eq e co si θ σ n hn, negM_mkGrid,
    conv_kernel_entry M n hn _ hr hc,
    Finset.mul_sum, Finset.mul_sum, ← Finset.sum_add_distrib]
  refine Finset.sum_congr rfl fun p hp => ?_
  rw [Finset.mul_sum, Finset.mul_sum, ← Finset.sum_add_distrib]
  refine Finset.sum_congr rfl fun q hq => ?_
  ring

theorem getZ_delta (n : ℕ) (hn : 0 < n) (r c : ℤ) :
    getZ (deltaImage n : List (List α)) r c =
      if r = ((n / 2 : ℕ) : ℤ) ∧ c = ((n / 2 : ℕ) : ℤ) then 1 else 0 := by
  rw [deltaImage, getZ_mkGrid]
  by_cases h1 : r = ((n / 2 : ℕ) : ℤ) ∧ c = ((n / 2 : ℕ) : ℤ)
  · rw [if_pos h1, if_pos (by omega), if_pos (by omega)]
  · rw [if_neg h1]
    by_cases h2 : 0 ≤ r ∧ r < (n : ℤ) ∧ 0 ≤ c ∧ c < (n : ℤ)
    · rw [if_pos h2, if_neg (by omega)]
    · rw [if_neg h2]

theorem conv_delta (n : ℕ) (hn : 0 < n) (hodd : Odd n) (G : ℕ → ℕ → α) :
    convolve2d (deltaImage n) (mkGrid n n G) = mkGrid n n G := by
  have hδlen : (deltaImage n : List (List α)).length = n := length_mkGrid _ _ _
  have hδrow : ((deltaImage n : List (List α)).getD 0 []).length = n :=
    row_length_mkGrid _ _ _ hn
  unfold convolve2d
  rw [hδlen, hδrow, length_mkGrid, row_length_mkGrid n n G hn]
  refine mkGrid_congr _ _ _ _ (fun r hr c hc => ?_)
  have key : ∀ p < n, ∀ q < n,
      (getZ (deltaImage n : List (List α))
        ((r : ℤ) + (((n - 1) / 2 : ℕ) : ℤ) - (p : ℤ))
        ((c : ℤ) + (((n - 1) / 2 : ℕ) : ℤ) - (q : ℤ))) =
      if q = c then (if p = r then (1 : α) else 0) else 0 := by
    intro p hp q hq
    rw [getZ_delta n hn]
    obtain ⟨m, hm⟩ := hodd
    split_ifs <;> first | rfl | omega
  have step : (∑ p ∈ Finset.range n, ∑ q ∈ Finset.range n,
      entry (mkGrid n n G) p q *
        getZ (deltaImage n : List (List α))
          ((r : ℤ) + (((n - 1) / 2 : ℕ) : ℤ) - (p : ℤ))
          ((c : ℤ) + (((n - 1) / 2 : ℕ) : ℤ) - (q : ℤ))) =
      ∑ p ∈ Finset.range n, ∑ q ∈ Finset.range n,
        (if q = c then (if p = r then G p q else 0) else 0) := by
    refine Finset.sum_congr rfl fun p hp => Finset.sum_congr rfl fun q hq => ?_
    rw [entry_mkGrid n n G (Finset.mem_range.mp hp) (Finset.mem_range.mp hq),
      key p (Finset.mem_range.mp hp) q (Finset.mem_range.mp hq)]
    simp only [mul_ite, mul_one, mul_zero]
  rw [step,
    Finset.sum_congr rfl (fun p _ => Finset.sum_ite_eq' (Finset.range n) c
      (fun q => if p = r then G p q else 0)),
    Finset.sum_congr rfl (fun p _ => if_pos (Finset.mem_range.mpr hc)),
    Finset.sum_ite_eq' (Finset.range n) r (fun p => G p c),
    if_pos (Finset.mem_range.mpr hr)]

theorem kernel_fun_sum (e co si : α → α) (θ σ : α) (n : ℕ) (hodd : Odd n)
    [CharZero α] :
    ∑ p ∈ Finset.range n, ∑ q ∈ Finset.range n,
      (co θ * ((gauss_g e σ n).getD p 0 * (gauss_gp e σ n).getD q 0) +
       si θ * ((gauss_g e σ n).getD q 0 * (gauss_gp e σ n).getD p 0)) = 0 := by
  have hgp := gauss_gp_sum e σ n hodd
  simp only [Finset.sum_add_distrib]
  have h1 : ∑ p ∈ Finset.range n, ∑ q ∈ Finset.range n,
      co θ * ((gauss_g e σ n).getD p 0 * (gauss_gp e σ n).getD q 0) = 0 := by
    refine Finset.sum_eq_zero fun p hp => ?_
    simp only [← mul_assoc]
    rw [← Finset.mul_sum, hgp, mul_zero]
  have h2 : ∑ p ∈ Finset.range n, ∑ q ∈ Finset.range n,
      si θ * ((gauss_g e σ n).getD q 0 * (gauss_gp e σ n).getD p 0) = 0 := by
    have hrow : ∀ p, ∑ q ∈ Finset.range n,
        si θ * ((gauss_g e σ n).getD q 0 * (gauss_gp e σ n).getD p 0) =
        (∑ q ∈ Finset.range n, si θ * (gauss_g e σ n).getD q 0) *
          (gauss_gp e σ n).getD p 0 := by
      intro p
      rw [Finset.sum_mul]
      exact Finset.sum_congr rfl fun q hq => by ring
    rw [Finset.sum_congr rfl (fun p _ => hrow p), ← Finset.mul_sum, hgp, mul_zero]
  rw [h1, h2, add_zero]

theorem mkGrid_row_mem (h w : ℕ) (f : ℕ → ℕ → α) :
    ∀ row ∈ mkGrid h w f, row.length = w := by
  intro row hrow
  rw [mkGrid] at hrow
  obtain ⟨r, hr, rfl⟩ := List.mem_map.mp hrow
  simp

theorem snd_eq_get_filter (e co si : α → α) (image : List (List α)) (θ σ : α)
    (n : ℕ) :
    (filter_with_theta e co si image θ σ n).2 = get_filter e co si θ σ n := rfl

theorem separable_grid (e co si : α → α) (M : List (List α)) (θ σ : α)
    {n : ℕ} (hn : 0 < n) :
    (filter_with_theta e co si M θ σ n).1 =
      convolve2d M (negM (get_filter e co si θ σ n)) := by
  refine grid_ext _ _ ?_ ?_ ?_
  · rw [output_length, conv_length]
  · intro r hr
    rw [output_length] at hr
    rw [output_row_length e co si M θ σ n hr, conv_row_length _ _ hr]
  · intro r c hr hc
    rw [output_length] at hr
    rw [output_row_length e co si M θ σ n hr] at hc
    exact separable_entry e co si M θ σ hn hr hc

/-! ### Concrete kernel entries used by the counterexamples -/

theorem gauss_g_val_4 : (gauss_g Real.exp 1 9).getD 4 0 = 1 := by
  rw [gauss_g_getD Real.exp 1 9 (show (4 : ℕ) < 9 by norm_num),
    (by decide : (steer_x 9).getD 4 0 = 0)]
  norm_num [Real.exp_zero]

theorem gauss_gp_val_5 : (gauss_gp Real.exp 1 9).getD 5 0 = -Real.exp (-(1 / 2)) := by
  rw [gauss_gp_getD Real.exp 1 9 (show (5 : ℕ) < 9 by norm_num),
    (by decide : (steer_x 9).getD 5 0 = 1)]
  norm_num

theorem gauss_gp_val_3 : (gauss_gp Real.exp 1 9).getD 3 0 = Real.exp (-(1 / 2)) := by
  rw [gauss_gp_getD Real.exp 1 9 (show (3 : ℕ) < 9 by norm_num),
    (by decide : (steer_x 9).getD 3 0 = -1)]
  norm_num

/-! ### The claims -/

/-- C1 (amended): for every rectangular 2D image, angle, positive sigma and
positive odd filter size, the separable path of `filter_with_theta`
(`cos θ · Ix + sin θ · Iy`) agrees exactly with directly convolving the image
with the NEGATION of the combined kernel `get_filter θ` under the same
stride-1, same-size, zero-fill `convolve2d` convention (equivalently, with
the 180°-rotation of the kernel, i.e. the separable path computes the
cross-correlation with `get_filter θ`, not the convolution). -/
theorem C1_separable_equals_conv_negated_kernel (image : List (List ℝ))
    (hrect : IsRect image) (θ σ : ℝ) (n : ℕ) (hn : 0 < n) (hodd : Odd n)
    (hσ : 0 < σ) :
    (filter_with_theta Real.exp Real.cos Real.sin image θ σ n).1 =
      convolve2d image (negM (get_filter Real.exp Real.cos Real.sin θ σ n)) :=
  separable_grid Real.exp Real.cos Real.sin image θ σ hn

/-- C1 witness: the amended claim instantiated at a concrete image. -/
theorem C1_witness :
    IsRect [[(1 : ℝ)]] ∧ (0 : ℕ) < 1 ∧ Odd 1 ∧ (0 : ℝ) < 1 ∧
      (filter_with_theta Real.exp Real.cos Real.sin [[(1 : ℝ)]] 0 1 1).1 =
        convolve2d [[(1 : ℝ)]]
          (negM (get_filter Real.exp Real.cos Real.sin 0 1 1)) :=
  ⟨by simp [IsRect], by norm_num, by decide, by norm_num,
    C1_separable_equals_conv_negated_kernel [[(1 : ℝ)]] (by simp [IsRect]) 0 1 1
      (by norm_num) (by decide) (by norm_num)⟩

/-- C1 counterexample: the claim as stated (separable path agrees with
convolution by `get_filter θ` itself) is false: for the 9×9 centered impulse
image at θ = 0, σ = 1, filter size 9, the two results differ at pixel (4, 5)
by 2·exp(-1/2). -/
theorem C1_counterexample :
    entry ((filter_with_theta Real.exp Real.cos Real.sin
      (deltaImage 9) 0 1 9).1) 4 5 ≠
    entry (convolve2d (deltaImage 9)
      (get_filter Real.exp Real.cos Real.sin 0 1 9)) 4 5 := by
  have h9 : (0 : ℕ) < 9 := by norm_num
  have hodd : Odd 9 := by decide
  have hδr : (4 : ℕ) < (deltaImage 9 : List (List ℝ)).length := by
    rw [deltaImage, length_mkGrid]
    norm_num
  have hδc : (5 : ℕ) < ((deltaImage 9 : List (List ℝ)).getD 0 []).length := by
    rw [deltaImage, row_length_mkGrid 9 9 _ h9]
    norm_num
  have hL : entry ((filter_with_theta Real.exp Real.cos Real.sin
      (deltaImage 9) 0 1 9).1) 4 5 = Real.exp (-(1 / 2)) := by
    rw [separable_entry Real.exp Real.cos Real.sin (deltaImage 9) 0 1 h9 hδr hδc,
      get_filter_eq Real.exp Real.cos Real.sin 0 1 9 h9, negM_mkGrid,
      conv_delta 9 h9 hodd, entry_mkGrid 9 9 _ (by norm_num) (by norm_num),
      gauss_g_val_4, gauss_gp_val_5, Real.cos_zero, Real.sin_zero]
    ring
  have hR : entry (convolve2d (deltaImage 9)
      (get_filter Real.exp Real.cos Real.sin 0 1 9)) 4 5 =
      -Real.exp (-(1 / 2)) := by
    rw [get_filter_eq Real.exp Real.cos Real.sin 0 1 9 h9, conv_delta 9 h9 hodd,
      entry_mkGrid 9 9 _ (by norm_num) (by norm_num),
      gauss_g_val_4, gauss_gp_val_5, Real.cos_zero, Real.sin_zero]
    ring
  rw [hL, hR]
  have hpos := Real.exp_pos (-(1 / 2) : ℝ)
  intro hEq
  linarith

/-- C2: `get_filter θ σ n` is the `n × n` matrix
`cos θ · B + sin θ · Bᵀ` where `B` is the outer product of the Gaussian
column `g` and the derivative-of-Gaussian row `gp`, both evaluated over the
integer offset vector `steer_x n`. -/
theorem C2_get_filter_formula (θ σ : ℝ) (n : ℕ) (hn : 0 < n) (hodd : Odd n)
    (hσ : 0 < σ) :
    (get_filter Real.exp Real.cos Real.sin θ σ n).length = n ∧
    (∀ row ∈ get_filter Real.exp Real.cos Real.sin θ σ n, row.length = n) ∧
    ∀ p < n, ∀ q < n,
      entry (get_filter Real.exp Real.cos Real.sin θ σ n) p q =
        Real.cos θ *
          (Real.exp ((-((((steer_x n).getD p 0 : ℤ) : ℝ) ^ 2)) / (2 * σ ^ 2)) *
            (-((((steer_x n).getD q 0 : ℤ) : ℝ) / σ) *
              Real.exp ((-((((steer_x n).getD q 0 : ℤ) : ℝ) ^ 2)) / (2 * σ ^ 2)))) +
        Real.sin θ *
          (Real.exp ((-((((steer_x n).getD q 0 : ℤ) : ℝ) ^ 2)) / (2 * σ ^ 2)) *
            (-((((steer_x n).getD p 0 : ℤ) : ℝ) / σ) *
              Real.exp ((-((((steer_x n).getD p 0 : ℤ) : ℝ) ^ 2)) / (2 * σ ^ 2)))) := by
  refine ⟨?_, ?_, ?_⟩
  · rw [get_filter_eq Real.exp Real.cos Real.sin θ σ n hn, length_mkGrid]
  · rw [get_filter_eq Real.exp Real.cos Real.sin θ σ n hn]
    exact mkGrid_row_mem n n _
  · intro p hp q hq
    rw [get_filter_eq Real.exp Real.cos Real.sin θ σ n hn,
      entry_mkGrid n n _ hp hq, gauss_g_getD Real.exp σ n hp,
      gauss_g_getD Real.exp σ n hq, gauss_gp_getD Real.exp σ n hp,
      gauss_gp_getD Real.exp σ n hq]

/-- C2 witness: the formula instantiated at θ = 0, σ = 1, n = 9. -/
theorem C2_witness :
    (0 : ℕ) < 9 ∧ Odd 9 ∧ (0 : ℝ) < 1 ∧
      (get_filter Real.exp Real.cos Real.sin 0 1 9).length = 9 :=
  ⟨by norm_num, by decide, by norm_num,
    (C2_get_filter_formula 0 1 9 (by norm_num) (by decide) (by norm_num)).1⟩

/-- C3: for every positive odd filter size, the index vector used by both
`get_filter` and `filter_with_theta` is the symmetric integer range from
`-(n / 2)` to `n / 2` inclusive, of length `n`, with entry `i` equal to
`i - n / 2`. -/
theorem C3_index_vector_symmetric (n : ℕ) (hn : 0 < n) (hodd : Odd n) :
    (steer_x n).length = n ∧
    steer_x n = (List.range n).map (fun i : ℕ => (i : ℤ) - ((n / 2 : ℕ) : ℤ)) ∧
    (steer_x n).getD 0 0 = -((n / 2 : ℕ) : ℤ) ∧
    (steer_x n).getD (n - 1) 0 = ((n / 2 : ℕ) : ℤ) := by
  refine ⟨steer_x_length n, ?_, ?_, ?_⟩
  · refine List.ext_getElem (by rw [steer_x_length]; simp) (fun i h1 h2 => ?_)
    have hi : i < n := by rwa [steer_x_length] at h1
    have hgd := steer_x_getD_odd n hodd hi
    rw [getD_eq_getElem_of_lt _ _ h1] at hgd
    rw [hgd, List.getElem_map, List.getElem_range]
  · rw [steer_x_getD_odd n hodd hn]
    omega
  · rw [steer_x_getD_odd n hodd (by omega)]
    obtain ⟨m, hm⟩ := hodd
    omega

/-- C3 witness: the index vector at n = 9. -/
theorem C3_witness :
    (0 : ℕ) < 9 ∧ Odd 9 ∧ (steer_x 9).length = 9 ∧
      steer_x 9 = (List.range 9).map (fun i : ℕ => (i : ℤ) - ((9 / 2 : ℕ) : ℤ)) :=
  ⟨by norm_num, by decide,
    (C3_index_vector_symmetric 9 (by norm_num) (by decide)).1,
    (C3_index_vector_symmetric 9 (by norm_num) (by decide)).2.1⟩

/-- C4: the combined kernel is 2π-periodic in θ, and shifting θ by π negates
it entrywise. -/
theorem C4_periodicity (θ σ : ℝ) (n : ℕ) (hn : 0 < n) (hodd : Odd n)
    (hσ : 0 < σ) :
    get_filter Real.exp Real.cos Real.sin (θ + 2 * Real.pi) σ n =
      get_filter Real.exp Real.cos Real.sin θ σ n ∧
    ∀ p < n, ∀ q < n,
      entry (get_filter Real.exp Real.cos Real.sin (θ + Real.pi) σ n) p q =
        -(entry (get_filter Real.exp Real.cos Real.sin θ σ n) p q) := by
  constructor
  · rw [get_filter_eq Real.exp Real.cos Real.sin (θ + 2 * Real.pi) σ n hn,
      get_filter_eq Real.exp Real.cos Real.sin θ σ n hn]
    simp only [Real.cos_add_two_pi, Real.sin_add_two_pi]
  · intro p hp q hq
    rw [get_filter_eq Real.exp Real.cos Real.sin (θ + Real.pi) σ n hn,
      get_filter_eq Real.exp Real.cos Real.sin θ σ n hn,
      entry_mkGrid n n _ hp hq, entry_mkGrid n n _ hp hq]
    simp only [Real.cos_add_pi, Real.sin_add_pi]
    ring

/-- C4 witness: periodicity at θ = 0, σ = 1, n = 9. -/
theorem C4_witness :
    (0 : ℕ) < 9 ∧ Odd 9 ∧ (0 : ℝ) < 1 ∧
      get_filter Real.exp Real.cos Real.sin (0 + 2 * Real.pi) 1 9 =
        get_filter Real.exp Real.cos Real.sin 0 1 9 :=
  ⟨by norm_num, by decide, by norm_num,
    (C4_periodicity 0 1 9 (by norm_num) (by decide) (by norm_num)).1⟩

/-- C5 (amended): with σ = 1, filter size 9, θ = 0 and the 9×9 centered unit
impulse image, the filtered image returned by `filter_with_theta` equals the
NEGATION of the precomputed kernel `get_filter 0` (equivalently its 180°
rotation), not the kernel itself. -/
theorem C5_impulse_response :
    (filter_with_theta Real.exp Real.cos Real.sin (deltaImage 9) 0 1 9).1 =
      negM (get_filter Real.exp Real.cos Real.sin 0 1 9) := by
  have h9 : (0 : ℕ) < 9 := by norm_num
  have hodd : Odd 9 := by decide
  rw [separable_grid Real.exp Real.cos Real.sin (deltaImage 9) 0 1 h9,
    get_filter_eq Real.exp Real.cos Real.sin 0 1 9 h9, negM_mkGrid,
    conv_delta 9 h9 hodd]

/-- C5 counterexample: the claim as stated (impulse response equals
`get_filter 0` itself) fails at pixel (4, 3): the filtered image has entry
`-exp(-1/2)` there while the kernel has entry `exp(-1/2)`. -/
theorem C5_counterexample :
    entry ((filter_with_theta Real.exp Real.cos Real.sin
      (deltaImage 9) 0 1 9).1) 4 3 ≠
    entry (get_filter Real.exp Real.cos Real.sin 0 1 9) 4 3 := by
  have h9 : (0 : ℕ) < 9 := by norm_num
  have hodd : Odd 9 := by decide
  have hδr : (4 : ℕ) < (deltaImage 9 : List (List ℝ)).length := by
    rw [deltaImage, length_mkGrid]
    norm_num
  have hδc : (3 : ℕ) < ((deltaImage 9 : List (List ℝ)).getD 0 []).length := by
    rw [deltaImage, row_length_mkGrid 9 9 _ h9]
    norm_num
  have hL : entry ((filter_with_theta Real.exp Real.cos Real.sin
      (deltaImage 9) 0 1 9).1) 4 3 = -Real.exp (-(1 / 2)) := by
    rw [separable_entry Real.exp Real.cos Real.sin (deltaImage 9) 0 1 h9 hδr hδc,
      get_filter_eq Real.exp Real.cos Real.sin 0 1 9 h9, negM_mkGrid,
      conv_delta 9 h9 hodd, entry_mkGrid 9 9 _ (by norm_num) (by norm_num),
      gauss_g_val_4, gauss_gp_val_3, Real.cos_zero, Real.sin_zero]
    ring
  have hR : entry (get_filter Real.exp Real.cos Real.sin 0 1 9) 4 3 =
      Real.exp (-(1 / 2)) := by
    rw [get_filter_eq Real.exp Real.cos Real.sin 0 1 9 h9,
      entry_mkGrid 9 9 _ (by norm_num) (by norm_num),
      gauss_g_val_4, gauss_gp_val_3, Real.cos_zero, Real.sin_zero]
    ring
  rw [hL, hR]
  have hpos := Real.exp_pos (-(1 / 2) : ℝ)
  intro hEq
  linarith

/-- C6: the second return value of `filter_with_theta` is exactly the matrix
computed by the standalone `get_filter`: the duplicated kernel construction
inside `filter_with_theta` produces the same result. -/
theorem C6_returned_kernel_matches (image : List (List ℝ)) (θ σ : ℝ) (n : ℕ) :
    (filter_with_theta Real.exp Real.cos Real.sin image θ σ n).2 =
      get_filter Real.exp Real.cos Real.sin θ σ n :=
  snd_eq_get_filter Real.exp Real.cos Real.sin image θ σ n

/-- C7: for every rectangular 2D image, angle, sigma and positive odd filter
size, the filtered image has exactly the shape of the input image (same
number of rows, each row of the same length). -/
theorem C7_shape_preserved (image : List (List ℝ)) (hrect : IsRect image)
    (θ σ : ℝ) (n : ℕ) (hn : 0 < n) (hodd : Odd n) :
    ((filter_with_theta Real.exp Real.cos Real.sin image θ σ n).1).length =
      image.length ∧
    ∀ r < image.length,
      (((filter_with_theta Real.exp Real.cos Real.sin image θ σ n).1).getD
        r []).length = (image.getD r []).length := by
  refine ⟨output_length Real.exp Real.cos Real.sin image θ σ n, fun r hr => ?_⟩
  rw [output_row_length Real.exp Real.cos Real.sin image θ σ n hr,
    getD_eq_getElem_of_lt _ _ hr]
  exact (hrect (image[r]) (List.getElem_mem hr)).symm

/-- C7 witness: shape preservation at a concrete 1×1 image. -/
theorem C7_witness :
    IsRect [[(1 : ℝ)]] ∧ (0 : ℕ) < 9 ∧ Odd 9 ∧
      ((filter_with_theta Real.exp Real.cos Real.sin [[(1 : ℝ)]] 0 1 9).1).length =
        [[(1 : ℝ)]].length :=
  ⟨by simp [IsRect], by norm_num, by decide,
    (C7_shape_preserved [[(1 : ℝ)]] (by simp [IsRect]) 0 1 9 (by norm_num)
      (by decide)).1⟩

/-- C8: both `filter_with_theta` and `get_filter` are deterministic pure
functions of their arguments: two calls with equal `(image, theta, sigma,
filter_size)` tuples return equal results (in this embedding both are pure
functions, so there is no hidden randomness or mutable state). -/
theorem C8_deterministic (image1 image2 : List (List ℝ)) (θ1 θ2 σ1 σ2 : ℝ)
    (n1 n2 : ℕ) (himg : image1 = image2) (hθ : θ1 = θ2) (hσ : σ1 = σ2)
    (hn : n1 = n2) :
    filter_with_theta Real.exp Real.cos Real.sin image1 θ1 σ1 n1 =
      filter_with_theta Real.exp Real.cos Real.sin image2 θ2 σ2 n2 ∧
    get_filter Real.exp Real.cos Real.sin θ1 σ1 n1 =
      get_filter Real.exp Real.cos Real.sin θ2 σ2 n2 := by
  subst himg hθ hσ hn
  exact ⟨rfl, rfl⟩

/-- C8 witness: determinism at a concrete input. -/
theorem C8_witness :
    [[(1 : ℝ)]] = [[(1 : ℝ)]] ∧ (0 : ℝ) = 0 ∧ (1 : ℝ) = 1 ∧ (9 : ℕ) = 9 ∧
      filter_with_theta Real.exp Real.cos Real.sin [[(1 : ℝ)]] 0 1 9 =
        filter_with_theta Real.exp Real.cos Real.sin [[(1 : ℝ)]] 0 1 9 :=
  ⟨rfl, rfl, rfl, rfl,
    (C8_deterministic [[(1 : ℝ)]] [[(1 : ℝ)]] 0 0 1 1 9 9 rfl rfl rfl rfl).1⟩

/-- C9: the kernel is antisymmetric under point reflection through its
center, the sum of all its entries is zero, and filtering a constant image
gives zero at every pixel whose kernel support lies inside the image. -/
theorem C9_antisymmetry_and_zero_sum (θ σ : ℝ) (n : ℕ) (hn : 0 < n)
    (hodd : Odd n) (hσ : 0 < σ) :
    (∀ i < n, ∀ j < n,
      entry (get_filter Real.exp Real.cos Real.sin θ σ n) i j =
        -(entry (get_filter Real.exp Real.cos Real.sin θ σ n)
          (n - 1 - i) (n - 1 - j))) ∧
    (∑ i ∈ Finset.range n, ∑ j ∈ Finset.range n,
      entry (get_filter Real.exp Real.cos Real.sin θ σ n) i j = 0) ∧
    (∀ (h w : ℕ) (v : ℝ) (r c : ℕ),
      (n - 1) / 2 ≤ r → r + (n - 1) / 2 < h →
      (n - 1) / 2 ≤ c → c + (n - 1) / 2 < w →
      entry ((filter_with_theta Real.exp Real.cos Real.sin
        (mkGrid h w (fun _ _ => v)) θ σ n).1) r c = 0) := by
  refine ⟨?_, ?_, ?_⟩
  · intro i hi j hj
    rw [get_filter_eq Real.exp Real.cos Real.sin θ σ n hn,
      entry_mkGrid n n _ hi hj, entry_mkGrid n n _ (by omega) (by omega),
      gauss_g_reflect Real.exp σ n hodd hi, gauss_g_reflect Real.exp σ n hodd hj,
      gauss_gp_reflect Real.exp σ n hodd hi,
      gauss_gp_reflect Real.exp σ n hodd hj]
    ring
  · rw [Finset.sum_congr rfl (fun i hi => Finset.sum_congr rfl (fun j hj => by
      rw [get_filter_eq Real.exp Real.cos Real.sin θ σ n hn,
        entry_mkGrid n n _ (Finset.mem_range.mp hi) (Finset.mem_range.mp hj)]))]
    exact kernel_fun_sum Real.exp Real.cos Real.sin θ σ n hodd
  · intro h w v r c hr1 hr2 hc1 hc2
    have hh : 0 < h := by omega
    have hrM : r < (mkGrid h w fun _ _ => (v : ℝ)).length := by
      rw [length_mkGrid]; omega
    have hcM : c < ((mkGrid h w fun _ _ => (v : ℝ)).getD 0 []).length := by
      rw [row_length_mkGrid h w _ hh]; omega
    rw [separable_entry Real.exp Real.cos Real.sin _ θ σ hn hrM hcM,
      get_filter_eq Real.exp Real.cos Real.sin θ σ n hn, negM_mkGrid,
      conv_kernel_entry _ n hn _ hrM hcM]
    obtain ⟨m, hm⟩ := id hodd
    have hg : ∀ p < n, ∀ q < n,
        getZ (mkGrid h w fun _ _ => (v : ℝ))
          ((r : ℤ) + (((n - 1) / 2 : ℕ) : ℤ) - (p : ℤ))
          ((c : ℤ) + (((n - 1) / 2 : ℕ) : ℤ) - (q : ℤ)) = v := by
      intro p hp q hq
      rw [getZ_mkGrid, if_pos ⟨by omega, by omega, by omega, by omega⟩]
    rw [Finset.sum_congr rfl (fun p hp => Finset.sum_congr rfl (fun q hq => by
      rw [hg p (Finset.mem_range.mp hp) q (Finset.mem_range.mp hq)]))]
    simp only [neg_mul, Finset.sum_neg_distrib, ← Finset.sum_mul]
    rw [kernel_fun_sum Real.exp Real.cos Real.sin θ σ n hodd, zero_mul, neg_zero]

/-- C9 witness: the kernel sum is zero at θ = 0, σ = 1, n = 9. -/
theorem C9_witness :
    (0 : ℕ) < 9 ∧ Odd 9 ∧ (0 : ℝ) < 1 ∧
      (∑ i ∈ Finset.range 9, ∑ j ∈ Finset.range 9,
        entry (get_filter Real.exp Real.cos Real.sin 0 1 9) i j = 0) :=
  ⟨by norm_num, by decide, by norm_num,
    (C9_antisymmetry_and_zero_sum 0 1 9 (by norm_num) (by decide)
      (by norm_num)).2.1⟩

/-- C10: for every positive filter size, including even ones, `get_filter`
and `filter_with_theta` are total and return an `n × n` kernel; for even `n`
the index vector is `-n/2 + 1 .. n/2`, of length `n` but not symmetric about
zero (it contains `n/2` but not `-n/2`); no validation or rejection occurs. -/
theorem C10_even_sizes_accepted (n : ℕ) (hn : 0 < n) :
    (steer_x n).length = n ∧
    (Even n →
      steer_x n = (List.range n).map (fun i : ℕ => 1 - ((n / 2 : ℕ) : ℤ) + (i : ℤ)) ∧
      ((n / 2 : ℕ) : ℤ) ∈ steer_x n ∧ (-((n / 2 : ℕ) : ℤ)) ∉ steer_x n) ∧
    (∀ θ σ : ℝ, (get_filter Real.exp Real.cos Real.sin θ σ n).length = n ∧
      ∀ row ∈ get_filter Real.exp Real.cos Real.sin θ σ n, row.length = n) ∧
    (∀ (image : List (List ℝ)) (θ σ : ℝ),
      ((filter_with_theta Real.exp Real.cos Real.sin image θ σ n).2).length = n ∧
      ∀ row ∈ (filter_with_theta Real.exp Real.cos Real.sin image θ σ n).2,
        row.length = n) := by
  refine ⟨steer_x_length n, ?_, ?_, ?_⟩
  · intro heven
    have hlist : steer_x n =
        (List.range n).map (fun i : ℕ => 1 - ((n / 2 : ℕ) : ℤ) + (i : ℤ)) := by
      refine List.ext_getElem (by rw [steer_x_length]; simp) (fun i h1 h2 => ?_)
      have hi : i < n := by rwa [steer_x_length] at h1
      have hgd := steer_x_getD n hi
      rw [getD_eq_getElem_of_lt _ _ h1] at hgd
      rw [hgd, List.getElem_map, List.getElem_range,
        Int.fdiv_eq_ediv _ (by norm_num)]
      obtain ⟨m, hm⟩ := heven
      omega
    refine ⟨hlist, ?_, ?_⟩
    · rw [hlist]
      refine List.mem_map.mpr ⟨n - 1, List.mem_range.mpr (by omega), ?_⟩
      obtain ⟨m, hm⟩ := heven
      omega
    · rw [hlist]
      intro hmem
      obtain ⟨i, hi, he⟩ := List.mem_map.mp hmem
      rw [List.mem_range] at hi
      omega
  · intro θ σ
    refine ⟨?_, ?_⟩
    · rw [get_filter_eq Real.exp Real.cos Real.sin θ σ n hn, length_mkGrid]
    · rw [get_filter_eq Real.exp Real.cos Real.sin θ σ n hn]
      exact mkGrid_row_mem n n _
  · intro image θ σ
    rw [snd_eq_get_filter, get_filter_eq Real.exp Real.cos Real.sin θ σ n hn]
    exact ⟨length_mkGrid _ _ _, mkGrid_row_mem n n _⟩

/-- C10 witness: the even filter size 8 is accepted and produces an 8-entry
index vector and an 8 × 8 kernel. -/
theorem C10_witness :
    (0 : ℕ) < 8 ∧ (steer_x 8).length = 8 ∧
      steer_x 8 = (List.range 8).map (fun i : ℕ => 1 - ((8 / 2 : ℕ) : ℤ) + (i : ℤ)) ∧
      (get_filter Real.exp Real.cos Real.sin 0 1 8).length = 8 :=
  ⟨by norm_num, (C10_even_sizes_accepted 8 (by norm_num)).1,
    ((C10_even_sizes_accepted 8 (by norm_num)).2.1 (by decide)).1,
    ((C10_even_sizes_accepted 8 (by norm_num)).2.2.1 0 1).1⟩

end SteeringFilter
